import Mathlib

/-!
Verification development for the portfolio position deriver and its callers.

The source is a JavaScript backend. We embed the relevant functions shallowly:
  - `derivePortfolioPositions` (average-cost position accounting, realized P&L),
  - the SELL validation performed by the transaction-creation HTTP handler,
  - `normalizeTicker` from the ticker utilities.

JavaScript numbers are idealized as rationals; `Number(x.toFixed(d))` is
modelled by `roundTo d` (ECMAScript toFixed picks the larger candidate on
ties, which is `round` = floor of x + 1/2). The JavaScript `Map` used as the
per-symbol accumulator is modelled by an insertion-ordered association list.
`Array.prototype.sort` is stable; we model it by the structurally recursive
stable sort `List.insertionSort` over the same comparison key.
-/

/-- Rounding to d decimal places, modelling Number(x.toFixed(d)) on ideal reals. -/
def roundTo (d : ℕ) (x : ℚ) : ℚ :=
  ((round (x * (10 : ℚ) ^ d) : ℤ) : ℚ) / (10 : ℚ) ^ d

/-- Transaction type enum from the zod schema: one of BUY, SELL. -/
inductive TxType where
  | BUY : TxType
  | SELL : TxType
deriving DecidableEq

/-- A portfolio transaction record, as consumed by derivePortfolioPositions.
executedAt is the epoch-milliseconds key used by the comparator. -/
structure Transaction where
  symbol : String
  type : TxType
  quantity : ℚ
  price : ℚ
  executedAt : ℤ
deriving DecidableEq

/-- The per-symbol accumulator object built inside derivePortfolioPositions. -/
structure PosAcc where
  symbol : String
  quantity : ℚ
  averageCost : ℚ
  totalCostBasis : ℚ
  buyTransactions : ℕ
  sellTransactions : ℕ
deriving DecidableEq

/-- The position record returned by derivePortfolioPositions. -/
structure Position where
  symbol : String
  quantity : ℚ
  averageCost : ℚ
  costBasis : ℚ
  latestClose : Option ℚ
  marketValue : Option ℚ
  unrealizedPnL : Option ℚ
  buyTransactions : ℕ
  sellTransactions : ℕ
deriving DecidableEq

/-- The default accumulator created when a symbol is first seen. -/
def emptyAcc (s : String) : PosAcc :=
  { symbol := s, quantity := 0, averageCost := 0, totalCostBasis := 0
    buyTransactions := 0, sellTransactions := 0 }

/-- Map lookup with default, modelling positionsMap.get(tx.symbol) with the
fresh-accumulator fallback. -/
def getAcc (m : List PosAcc) (s : String) : PosAcc :=
  (m.find? fun a => decide (a.symbol = s)).getD (emptyAcc s)

/-- Map store, modelling positionsMap.set(key, value): update in place when the
key is present (preserving insertion order), append otherwise. -/
def setAcc (m : List PosAcc) (key : String) (x : PosAcc) : List PosAcc :=
  if m.any fun a => decide (a.symbol = key) then
    m.map fun a => if a.symbol = key then x else a
  else m ++ [x]

/-- One step of the transaction loop: the body of the for-loop over
sortedTransactions, acting on the accumulator map and running realizedPnL. -/
def processTx (st : List PosAcc × ℚ) (tx : Transaction) : List PosAcc × ℚ :=
  let current := getAcc st.1 tx.symbol
  match tx.type with
  | TxType.BUY =>
      let c1 : PosAcc := { current with
        totalCostBasis := current.totalCostBasis + tx.quantity * tx.price
        quantity := current.quantity + tx.quantity
        buyTransactions := current.buyTransactions + 1 }
      let c2 : PosAcc := { c1 with
        averageCost := if 0 < c1.quantity then c1.totalCostBasis / c1.quantity else 0 }
      (setAcc st.1 tx.symbol c2, st.2)
  | TxType.SELL =>
      let avgCost := if 0 < current.quantity then current.totalCostBasis / current.quantity else 0
      let c1 : PosAcc := { current with
        totalCostBasis := max 0 (current.totalCostBasis - tx.quantity * avgCost)
        quantity := max 0 (current.quantity - tx.quantity)
        sellTransactions := current.sellTransactions + 1 }
      let c2 : PosAcc := { c1 with
        averageCost := if 0 < c1.quantity then c1.totalCostBasis / c1.quantity else 0 }
      (setAcc st.1 tx.symbol c2, st.2 + tx.quantity * (tx.price - avgCost))

/-- The comparison used by the internal sort: ascending executedAt. -/
def txLe (a b : Transaction) : Prop := a.executedAt ≤ b.executedAt

instance : DecidableRel txLe := fun a b => Int.decLe a.executedAt b.executedAt

/-- The defensive internal sort of the input list, ascending by executedAt.
The source uses the stable Array.prototype.sort with comparator
(a, b) => getTime(a) - getTime(b); any stable sort over the same total
preorder computes the same list, so we use the structural insertionSort. -/
def sortTxs (txs : List Transaction) : List Transaction :=
  List.insertionSort txLe txs

/-- The state after the accumulation loop of derivePortfolioPositions: the
insertion-ordered symbol map and the unrounded global realizedPnL. -/
def runTransactions (txs : List Transaction) : List PosAcc × ℚ :=
  (sortTxs txs).foldl processTx ([], 0)

/-- Post-pass enrichment of one accumulator into a returned position record:
latestClose from the price map or null, rounded display fields. -/
def finalizePosition (latestCloseMap : String → Option ℚ) (a : PosAcc) : Position :=
  let latestClose := latestCloseMap a.symbol
  let marketValue :=
    match latestClose with
    | some c => some (roundTo 2 (a.quantity * c))
    | none => none
  let costBasis := roundTo 2 a.totalCostBasis
  let unrealizedPnL :=
    match marketValue with
    | some mv => some (roundTo 2 (mv - costBasis))
    | none => none
  { symbol := a.symbol
    quantity := roundTo 4 a.quantity
    averageCost := roundTo 2 a.averageCost
    costBasis := costBasis
    latestClose := latestClose
    marketValue := marketValue
    unrealizedPnL := unrealizedPnL
    buyTransactions := a.buyTransactions
    sellTransactions := a.sellTransactions }

/-- Embedding of derivePortfolioPositions: sort, accumulate, keep only
positions with positive quantity, enrich, and round realizedPnL at return. -/
def derivePortfolioPositions (txs : List Transaction)
    (latestCloseMap : String → Option ℚ) : List Position × ℚ :=
  let st := runTransactions txs
  ((st.1.filter fun a => decide (0 < a.quantity)).map (finalizePosition latestCloseMap),
    roundTo 2 st.2)

/-- The empty price map, modelling the default argument new Map(). -/
def noPrices : String → Option ℚ := fun _ => none

/-- The available quantity computed by the SELL branch of the
POST /portfolios/:id/transactions handler: derive over the same-symbol
history with no price map, find the position for the symbol, default 0. -/
def availableQuantity (existing : List Transaction) (symbol : String) : ℚ :=
  (((derivePortfolioPositions existing noPrices).1.find?
      fun p => decide (p.symbol = symbol)).map Position.quantity).getD 0

/-- The validation error string built by the handler on oversell. -/
def sellErrorMessage (symbol : String) (requested available : ℚ) : String :=
  "Cannot sell " ++ toString requested ++ " shares of " ++ symbol ++
    ". Only " ++ toString available ++ " shares available."

/-- Embedding of the persistence decision of the transaction-creation handler:
a SELL whose quantity exceeds the derived available quantity is rejected with
the validation error and nothing is appended; otherwise the transaction is
appended to the stored history. -/
def handleCreateTransaction (existing : List Transaction) (req : Transaction) :
    Except String (List Transaction) :=
  match req.type with
  | TxType.SELL =>
      let available := availableQuantity existing req.symbol
      if available < req.quantity then
        Except.error (sellErrorMessage req.symbol req.quantity available)
      else
        Except.ok (existing ++ [req])
  | TxType.BUY => Except.ok (existing ++ [req])

/-- First-character class of the ticker regex: A to Z. -/
def isTickerHead (c : Char) : Bool := decide ('A' ≤ c) && decide (c ≤ 'Z')

/-- Tail-character class of the ticker regex: A to Z, 0 to 9, or dot. -/
def isTickerTail (c : Char) : Bool :=
  (decide ('A' ≤ c) && decide (c ≤ 'Z')) ||
  (decide ('0' ≤ c) && decide (c ≤ '9')) || c == '.'

/-- The test of the regex from tickers.js: a leading letter followed by up to
nine characters that are letters, digits, or dot. -/
def tickerPattern (s : String) : Bool :=
  match s.data with
  | [] => false
  | c :: cs => isTickerHead c && decide (cs.length ≤ 9) && cs.all isTickerTail

/-- Whitespace trim at both ends, modelling the JavaScript trim call. Written
over the character list so it computes by structural recursion. -/
def jsTrim (s : String) : String :=
  ⟨((s.data.dropWhile Char.isWhitespace).reverse.dropWhile Char.isWhitespace).reverse⟩

/-- Per-character uppercasing, modelling toUpperCase on the ASCII inputs the
ticker code deals with. -/
def jsToUpper (s : String) : String :=
  ⟨s.data.map Char.toUpper⟩

/-- Stripping of a trailing ".US", modelling replace of the anchored pattern. -/
def stripUSSuffix (s : String) : String :=
  match s.data.reverse with
  | 'S' :: 'U' :: '.' :: rest => ⟨rest.reverse⟩
  | _ => s

/-- Embedding of normalizeTicker from tickers.js: trim, uppercase, strip a
trailing ".US", then accept only strings matching the ticker pattern. -/
def normalizeTicker (input : String) : Option String :=
  let raw := stripUSSuffix (jsToUpper (jsTrim input))
  if tickerPattern raw then some raw else none

/-- The shape claimed by the spec data model for normalized symbols:
uppercase letters and dot only, length 1 to 10. Stated over the character
list of the string. -/
def specLetterDotShape (s : String) : Bool :=
  decide (1 ≤ s.data.length) && decide (s.data.length ≤ 10) &&
    s.data.all fun c => (decide ('A' ≤ c) && decide (c ≤ 'Z')) || c == '.'

/-- The corrected shape: uppercase string of 1 to 10 characters whose first
character is a letter and whose characters are letters, digits, or dot. -/
def amendedTickerShape (s : String) : Bool :=
  decide (1 ≤ s.data.length) && decide (s.data.length ≤ 10) &&
    (match s.data with
     | [] => false
     | c :: _ => isTickerHead c) &&
    s.data.all isTickerTail

/-! ### Claim-support definitions -/

/-- Invariant on the accumulator map: entries carry pairwise distinct symbols. -/
def keyInv (m : List PosAcc) : Prop :=
  m.Pairwise fun a b => a.symbol ≠ b.symbol

/-- Invariant on the accumulator map: every entry has nonnegative quantity and
nonnegative total cost basis. -/
def valInv (m : List PosAcc) : Prop :=
  ∀ a ∈ m, 0 ≤ a.quantity ∧ 0 ≤ a.totalCostBasis

/-- Well-typedness of a transaction per the data model: positive quantity and
positive price. -/
def wfTx (tx : Transaction) : Prop :=
  0 < tx.quantity ∧ 0 < tx.price

/-- The price-map-independent fields of a returned position. -/
def coreFields (p : Position) : String × ℚ × ℚ × ℚ × ℕ × ℕ :=
  (p.symbol, p.quantity, p.averageCost, p.costBasis, p.buyTransactions, p.sellTransactions)

/-- Shorthand for a BUY transaction literal. -/
def buyTx (sym : String) (q p : ℚ) (t : ℤ) : Transaction :=
  { symbol := sym, type := TxType.BUY, quantity := q, price := p, executedAt := t }

/-- Shorthand for a SELL transaction literal. -/
def sellTx (sym : String) (q p : ℚ) (t : ℤ) : Transaction :=
  { symbol := sym, type := TxType.SELL, quantity := q, price := p, executedAt := t }

/-- Scenario input: BUY 10 shares at price 100 at time 0. -/
def txBuy10 : Transaction := buyTx "AAPL" 10 100 0

/-- Scenario input: SELL 4 shares at price 150 at time 1. -/
def txSell4 : Transaction := sellTx "AAPL" 4 150 1

/-- Scenario input: SELL 10 shares at price 150 at time 1. -/
def txSell10 : Transaction := sellTx "AAPL" 10 150 1

/-- Tie-breaking counterexample input: BUY 1 at price 10, time 0. -/
def txTieBuy : Transaction := buyTx "AAPL" 1 10 0

/-- Tie-breaking counterexample input: SELL 1 at price 20, also time 0. -/
def txTieSell : Transaction := sellTx "AAPL" 1 20 0

/-- The final accumulator reached by scenario 3 (fully closed position). -/
def c5AccFinal : PosAcc :=
  { symbol := "AAPL", quantity := 0, averageCost := 0, totalCostBasis := 0
    buyTransactions := 1, sellTransactions := 1 }

/-- The position returned for a single BUY of 10 at 100 with no price data. -/
def c8Pos : Position :=
  { symbol := "AAPL", quantity := 10, averageCost := 100, costBasis := 1000
    latestClose := none, marketValue := none, unrealizedPnL := none
    buyTransactions := 1, sellTransactions := 0 }

/-! ### Helper lemmas -/

/-- Rounding preserves nonnegativity. -/
theorem roundTo_nonneg (d : ℕ) {x : ℚ} (hx : 0 ≤ x) : 0 ≤ roundTo d x := by
  unfold roundTo
  have h2 : (0 : ℤ) ≤ round (x * (10 : ℚ) ^ d) := by
    rw [round_eq]
    refine Int.floor_nonneg.mpr ?_
    have : (0 : ℚ) ≤ x * (10 : ℚ) ^ d := by positivity
    linarith
  have h3 : (0 : ℚ) ≤ ((round (x * (10 : ℚ) ^ d) : ℤ) : ℚ) := by exact_mod_cast h2
  positivity

/-- The accumulator returned by getAcc always carries the requested symbol. -/
theorem getAcc_symbol (m : List PosAcc) (s : String) : (getAcc m s).symbol = s := by
  unfold getAcc
  cases h : m.find? fun a => decide (a.symbol = s) with
  | none => simp [emptyAcc]
  | some a =>
    have h2 : a.symbol = s := by simpa using List.find?_some h
    simpa using h2

/-- The accumulator returned by getAcc is either a map entry or the default. -/
theorem getAcc_cases (m : List PosAcc) (s : String) :
    getAcc m s ∈ m ∨ getAcc m s = emptyAcc s := by
  unfold getAcc
  cases h : m.find? fun a => decide (a.symbol = s) with
  | none => simp
  | some a => exact Or.inl (by simpa using List.mem_of_find?_eq_some h)

/-- Under the value invariant the accumulator read for any symbol has
nonnegative quantity and cost basis. -/
theorem getAcc_nonneg {m : List PosAcc} (h : valInv m) (s : String) :
    0 ≤ (getAcc m s).quantity ∧ 0 ≤ (getAcc m s).totalCostBasis := by
  rcases getAcc_cases m s with hm | he
  · exact h _ hm
  · rw [he]; simp [emptyAcc]

/-- Every member of the updated map is the stored value or an old entry. -/
theorem mem_setAcc {m : List PosAcc} {key : String} {x b : PosAcc}
    (hb : b ∈ setAcc m key x) : b = x ∨ b ∈ m := by
  unfold setAcc at hb
  by_cases h : (m.any fun a => decide (a.symbol = key)) = true
  · rw [if_pos h] at hb
    obtain ⟨a, ha, hab⟩ := List.mem_map.mp hb
    by_cases hs : a.symbol = key
    · rw [if_pos hs] at hab; exact Or.inl hab.symm
    · rw [if_neg hs] at hab; exact Or.inr (hab ▸ ha)
  · rw [if_neg h] at hb
    rcases List.mem_append.mp hb with h1 | h1
    · exact Or.inr h1
    · exact Or.inl (by simpa using h1)

/-- Storing a value under its own symbol preserves distinctness of symbols. -/
theorem keyInv_setAcc {m : List PosAcc} {key : String} {x : PosAcc}
    (hx : x.symbol = key) (h : keyInv m) : keyInv (setAcc m key x) := by
  unfold setAcc
  by_cases hany : (m.any fun a => decide (a.symbol = key)) = true
  · rw [if_pos hany]
    have hupd : ∀ a : PosAcc, (if a.symbol = key then x else a).symbol = a.symbol := by
      intro a
      by_cases hs : a.symbol = key
      · rw [if_pos hs, hx, hs]
      · rw [if_neg hs]
    rw [keyInv, List.pairwise_map]
    exact h.imp fun {a b} hab => by
      rw [hupd a, hupd b]; exact hab
  · rw [if_neg hany]
    rw [keyInv, List.pairwise_append]
    refine ⟨h, List.pairwise_singleton _ _, ?_⟩
    intro a ha b hb
    have hb2 : b = x := by simpa using hb
    subst hb2
    rw [hx]
    intro heq
    exact hany (List.any_eq_true.mpr ⟨a, ha, by simp [heq]⟩)

/-- A processed transaction preserves nonnegativity of all map entries,
provided the transaction is well-typed. -/
theorem processTx_valInv {st : List PosAcc × ℚ} {tx : Transaction}
    (hwf : wfTx tx) (h : valInv st.1) : valInv (processTx st tx).1 := by
  intro b hb
  have hcur := getAcc_nonneg h tx.symbol
  cases htx : tx.type with
  | BUY =>
    simp only [processTx, htx] at hb
    rcases mem_setAcc hb with rfl | hbm
    · constructor
      · nlinarith [hcur.1, hwf.1]
      · nlinarith [hcur.2, hwf.1, hwf.2]
    · exact h _ hbm
  | SELL =>
    simp only [processTx, htx] at hb
    rcases mem_setAcc hb with rfl | hbm
    · exact ⟨le_max_left _ _, le_max_left _ _⟩
    · exact h _ hbm

/-- A processed transaction preserves distinctness of symbols in the map. -/
theorem processTx_keyInv {st : List PosAcc × ℚ} {tx : Transaction}
    (h : keyInv st.1) : keyInv (processTx st tx).1 := by
  cases htx : tx.type with
  | BUY =>
    simp only [processTx, htx]
    exact keyInv_setAcc (by simp [getAcc_symbol]) h
  | SELL =>
    simp only [processTx, htx]
    exact keyInv_setAcc (by simp [getAcc_symbol]) h

/-- Folding well-typed transactions preserves nonnegativity of map entries. -/
theorem foldl_valInv : ∀ (l : List Transaction) (st : List PosAcc × ℚ),
    (∀ tx ∈ l, wfTx tx) → valInv st.1 → valInv ((l.foldl processTx st).1)
  | [], _, _, h => h
  | tx :: l, st, hwf, h => by
    simp only [List.foldl_cons]
    exact foldl_valInv l _ (fun t ht => hwf t (List.mem_cons_of_mem _ ht))
      (processTx_valInv (hwf tx (List.mem_cons_self _ _)) h)

/-- Folding transactions preserves distinctness of symbols in the map. -/
theorem foldl_keyInv : ∀ (l : List Transaction) (st : List PosAcc × ℚ),
    keyInv st.1 → keyInv ((l.foldl processTx st).1)
  | [], _, h => h
  | tx :: l, st, h => by
    simp only [List.foldl_cons]
    exact foldl_keyInv l _ (processTx_keyInv h)

/-- The final accumulator map has pairwise distinct symbols. -/
theorem runTransactions_keyInv (txs : List Transaction) :
    keyInv (runTransactions txs).1 :=
  foldl_keyInv _ _ (List.Pairwise.nil)

/-- Every returned position arises from a map entry with positive quantity. -/
theorem mem_positions {txs : List Transaction} {m : String → Option ℚ}
    {p : Position} (hp : p ∈ (derivePortfolioPositions txs m).1) :
    ∃ a, a ∈ (runTransactions txs).1 ∧ 0 < a.quantity ∧ p = finalizePosition m a := by
  simp only [derivePortfolioPositions] at hp
  obtain ⟨a, ha, rfl⟩ := List.mem_map.mp hp
  obtain ⟨ha1, ha2⟩ := List.mem_filter.mp ha
  exact ⟨a, ha1, by simpa using ha2, rfl⟩

/-- The enriched position keeps the accumulator symbol. -/
theorem finalizePosition_symbol (m : String → Option ℚ) (a : PosAcc) :
    (finalizePosition m a).symbol = a.symbol := rfl

/-- When the price map has no entry for the symbol, the three market fields
are null and costBasis is the rounded accumulated total cost basis. -/
theorem finalizePosition_missing {m : String → Option ℚ} {a : PosAcc}
    (h : m a.symbol = none) :
    (finalizePosition m a).latestClose = none ∧
    (finalizePosition m a).marketValue = none ∧
    (finalizePosition m a).unrealizedPnL = none ∧
    (finalizePosition m a).costBasis = roundTo 2 a.totalCostBasis := by
  simp [finalizePosition, h]

/-- Two permuted transaction lists with pairwise distinct executedAt keys sort
to the same list: with no ties the stable sort output is determined by the
multiset of elements. -/
theorem sortTxs_eq_of_perm {l1 l2 : List Transaction} (hperm : l1.Perm l2)
    (hne : l1.Pairwise fun a b => a.executedAt ≠ b.executedAt) :
    sortTxs l1 = sortTxs l2 := by
  haveI : IsTotal Transaction txLe := ⟨fun a b => le_total a.executedAt b.executedAt⟩
  haveI : IsTrans Transaction txLe := ⟨fun _ _ _ hab hbc => le_trans hab hbc⟩
  have hs1 : (sortTxs l1).Pairwise txLe := List.sorted_insertionSort txLe l1
  have hs2 : (sortTxs l2).Pairwise txLe := List.sorted_insertionSort txLe l2
  have hp1 : (sortTxs l1).Perm l1 := List.perm_insertionSort txLe l1
  have hp2 : (sortTxs l2).Perm l2 := List.perm_insertionSort txLe l2
  have hsymm : ∀ {x y : Transaction},
      x.executedAt ≠ y.executedAt → y.executedAt ≠ x.executedAt := fun h => Ne.symm h
  have hne1 : (sortTxs l1).Pairwise fun a b => a.executedAt ≠ b.executedAt :=
    (hp1.pairwise_iff hsymm).mpr hne
  have hne2 : (sortTxs l2).Pairwise fun a b => a.executedAt ≠ b.executedAt :=
    (hp2.pairwise_iff hsymm).mpr ((hperm.pairwise_iff hsymm).mp hne)
  have hlt1 : (sortTxs l1).Pairwise fun a b => a.executedAt < b.executedAt :=
    (hs1.and hne1).imp fun h => lt_of_le_of_ne h.1 h.2
  have hlt2 : (sortTxs l2).Pairwise fun a b => a.executedAt < b.executedAt :=
    (hs2.and hne2).imp fun h => lt_of_le_of_ne h.1 h.2
  haveI : IsAntisymm Transaction fun a b => a.executedAt < b.executedAt :=
    ⟨fun _ _ h1 h2 => absurd h1 (not_lt.mpr h2.le)⟩
  exact List.eq_of_perm_of_sorted (hp1.trans (hperm.trans hp2.symm)) hlt1 hlt2

/-- Claim C1: the scenario list BUY 10 at 100 then SELL 4 at 150 yields exactly one
position, with quantity 6, averageCost 100, costBasis 600, and realizedPnL 200,
for every price map. -/
theorem spec_C1 (m : String → Option ℚ) :
    ((derivePortfolioPositions [txBuy10, txSell4] m).1.map
      fun p => (p.symbol, p.quantity, p.averageCost, p.costBasis)) = [("AAPL", 6, 100, 600)] ∧
    (derivePortfolioPositions [txBuy10, txSell4] m).2 = 200 := by
  constructor <;>
    norm_num [derivePortfolioPositions, runTransactions, sortTxs, txLe, processTx,
      getAcc, setAcc, emptyAcc, finalizePosition, roundTo, txBuy10, txSell4,
      buyTx, sellTx, round_eq]

/-- Claim C2: for well-typed transactions, every accumulator entry after any prefix
of the processing loop, and every returned position, has nonnegative quantity
and nonnegative (total) cost basis. -/
theorem spec_C2 (txs : List Transaction) (m : String → Option ℚ)
    (hwf : ∀ tx ∈ txs, wfTx tx) :
    (∀ pre suf, sortTxs txs = pre ++ suf →
      ∀ a ∈ (pre.foldl processTx ([], 0)).1, 0 ≤ a.quantity ∧ 0 ≤ a.totalCostBasis) ∧
    (∀ p ∈ (derivePortfolioPositions txs m).1, 0 ≤ p.quantity ∧ 0 ≤ p.costBasis) := by
  have hwfsorted : ∀ tx ∈ sortTxs txs, wfTx tx := fun t ht =>
    hwf t (((List.perm_insertionSort txLe txs).mem_iff).mp ht)
  have hnil : valInv (([] : List PosAcc)) := fun a ha => absurd ha (List.not_mem_nil a)
  constructor
  · intro pre suf hps a ha
    have hpre : ∀ tx ∈ pre, wfTx tx := fun t ht =>
      hwfsorted t (hps ▸ List.mem_append_left _ ht)
    exact foldl_valInv pre ([], 0) hpre hnil a ha
  · intro p hp
    obtain ⟨a, ha, haq, rfl⟩ := mem_positions hp
    have hval : valInv (runTransactions txs).1 :=
      foldl_valInv _ _ hwfsorted hnil
    have h2 := hval a ha
    constructor
    · simpa [finalizePosition] using roundTo_nonneg 4 h2.1
    · simpa [finalizePosition] using roundTo_nonneg 2 h2.2

/-- Claim C2 witness: the scenario 2 list is well typed and its returned
position has nonnegative quantity and cost basis. -/
theorem spec_C2_witness :
    (∀ tx ∈ [txBuy10, txSell4], wfTx tx) ∧
    (∀ p ∈ (derivePortfolioPositions [txBuy10, txSell4] noPrices).1,
      0 ≤ p.quantity ∧ 0 ≤ p.costBasis) := by
  have hwf : ∀ tx ∈ [txBuy10, txSell4], wfTx tx := by
    intro tx ht
    have h2 : tx = txBuy10 ∨ tx = txSell4 := by simpa using ht
    rcases h2 with rfl | rfl <;>
      exact ⟨by norm_num [txBuy10, txSell4, buyTx, sellTx],
        by norm_num [txBuy10, txSell4, buyTx, sellTx]⟩
  exact ⟨hwf, (spec_C2 [txBuy10, txSell4] noPrices hwf).2⟩

/-- Claim C3 counterexample: with a BUY and a SELL sharing executedAt, swapping
the two inputs changes the result, so permutation invariance fails on ties. -/
theorem spec_C3_counterexample :
    List.Perm [txTieBuy, txTieSell] [txTieSell, txTieBuy] ∧
    (derivePortfolioPositions [txTieBuy, txTieSell] noPrices).2 = 10 ∧
    (derivePortfolioPositions [txTieSell, txTieBuy] noPrices).2 = 20 ∧
    derivePortfolioPositions [txTieBuy, txTieSell] noPrices ≠
      derivePortfolioPositions [txTieSell, txTieBuy] noPrices := by
  have h1 : (derivePortfolioPositions [txTieBuy, txTieSell] noPrices).2 = 10 := by
    norm_num [derivePortfolioPositions, runTransactions, sortTxs, txLe, processTx,
      getAcc, setAcc, emptyAcc, roundTo, txTieBuy, txTieSell, buyTx, sellTx, round_eq]
  have h2 : (derivePortfolioPositions [txTieSell, txTieBuy] noPrices).2 = 20 := by
    norm_num [derivePortfolioPositions, runTransactions, sortTxs, txLe, processTx,
      getAcc, setAcc, emptyAcc, roundTo, txTieBuy, txTieSell, buyTx, sellTx, round_eq]
  refine ⟨List.Perm.swap _ _ _, h1, h2, ?_⟩
  intro h
  have := congrArg Prod.snd h
  rw [h1, h2] at this
  norm_num at this

/-- Claim C3 amended: reshuffling the input yields the same result whenever the
executedAt keys are pairwise distinct. -/
theorem spec_C3_amended (l1 l2 : List Transaction) (m : String → Option ℚ)
    (hperm : l1.Perm l2)
    (hne : l1.Pairwise fun a b => a.executedAt ≠ b.executedAt) :
    derivePortfolioPositions l1 m = derivePortfolioPositions l2 m := by
  unfold derivePortfolioPositions runTransactions
  rw [sortTxs_eq_of_perm hperm hne]

/-- Claim C3 amended witness at a concrete reshuffled pair with distinct keys. -/
theorem spec_C3_amended_witness :
    List.Perm [txBuy10, txSell4] [txSell4, txBuy10] ∧
    ([txBuy10, txSell4].Pairwise fun a b => a.executedAt ≠ b.executedAt) ∧
    derivePortfolioPositions [txBuy10, txSell4] noPrices =
      derivePortfolioPositions [txSell4, txBuy10] noPrices := by
  have hne : [txBuy10, txSell4].Pairwise fun a b => a.executedAt ≠ b.executedAt := by
    simp [List.pairwise_cons, txBuy10, txSell4, buyTx, sellTx]
  exact ⟨List.Perm.swap _ _ _, hne,
    spec_C3_amended _ _ noPrices (List.Perm.swap _ _ _) hne⟩

/-- Claim C4: a SELL processed while the accumulated quantity of its symbol is zero
contributes its full proceeds, quantity times price, to realized P&L. -/
theorem spec_C4 (st : List PosAcc × ℚ) (tx : Transaction)
    (hsell : tx.type = TxType.SELL)
    (hq : (getAcc st.1 tx.symbol).quantity = 0) :
    (processTx st tx).2 = st.2 + tx.quantity * tx.price := by
  simp [processTx, hsell, hq]

/-- Claim C4 witness: selling 5 at price 7 against an empty map adds 35. -/
theorem spec_C4_witness :
    (sellTx "X" 5 7 0).type = TxType.SELL ∧
    (getAcc (([] : List PosAcc), (0 : ℚ)).1 (sellTx "X" 5 7 0).symbol).quantity = 0 ∧
    (processTx (([] : List PosAcc), (0 : ℚ)) (sellTx "X" 5 7 0)).2 = 0 + 5 * 7 := by
  refine ⟨rfl, ?_, ?_⟩
  · simp [getAcc, emptyAcc, sellTx]
  · exact spec_C4 (([] : List PosAcc), (0 : ℚ)) (sellTx "X" 5 7 0) rfl
      (by simp [getAcc, emptyAcc, sellTx])

/-- Claim C5: a symbol whose accumulated quantity is zero after processing is absent
from the returned positions, while the returned realizedPnL is the rounded
global accumulator, unaffected by the exclusion; scenario 3 returns no
positions and realizedPnL 500. -/
theorem spec_C5 (txs : List Transaction) (m : String → Option ℚ) (a : PosAcc)
    (ha : a ∈ (runTransactions txs).1) (h0 : a.quantity = 0) :
    (a.symbol ∉ (derivePortfolioPositions txs m).1.map Position.symbol) ∧
    (derivePortfolioPositions txs m).2 = roundTo 2 (runTransactions txs).2 ∧
    (derivePortfolioPositions [txBuy10, txSell10] noPrices).1 = [] ∧
    (derivePortfolioPositions [txBuy10, txSell10] noPrices).2 = 500 := by
  refine ⟨?_, rfl, ?_, ?_⟩
  · intro hmem
    obtain ⟨p, hp, hsym⟩ := List.mem_map.mp hmem
    obtain ⟨b, hb, hbq, rfl⟩ := mem_positions hp
    have hsymb : b.symbol = a.symbol := hsym
    have hne : b ≠ a := by
      intro he
      rw [he, h0] at hbq
      exact lt_irrefl 0 hbq
    have hkey := runTransactions_keyInv txs
    unfold keyInv at hkey
    exact hkey.forall (fun x y h => Ne.symm h) hb ha hne hsymb
  · norm_num [derivePortfolioPositions, runTransactions, sortTxs, txLe, processTx,
      getAcc, setAcc, emptyAcc, roundTo, txBuy10, txSell10, buyTx, sellTx, round_eq]
  · norm_num [derivePortfolioPositions, runTransactions, sortTxs, txLe, processTx,
      getAcc, setAcc, emptyAcc, roundTo, txBuy10, txSell10, buyTx, sellTx, round_eq]

/-- Claim C5 witness: scenario 3 instantiated, with the fully closed accumulator. -/
theorem spec_C5_witness :
    c5AccFinal ∈ (runTransactions [txBuy10, txSell10]).1 ∧
    c5AccFinal.quantity = 0 ∧
    (c5AccFinal.symbol ∉
      (derivePortfolioPositions [txBuy10, txSell10] noPrices).1.map Position.symbol) ∧
    (derivePortfolioPositions [txBuy10, txSell10] noPrices).1 = [] ∧
    (derivePortfolioPositions [txBuy10, txSell10] noPrices).2 = 500 := by
  have hmem : c5AccFinal ∈ (runTransactions [txBuy10, txSell10]).1 := by
    norm_num [runTransactions, sortTxs, txLe, processTx, getAcc, setAcc, emptyAcc,
      txBuy10, txSell10, buyTx, sellTx, c5AccFinal]
  have h0 : c5AccFinal.quantity = 0 := rfl
  have h := spec_C5 [txBuy10, txSell10] noPrices c5AccFinal hmem h0
  exact ⟨hmem, h0, h.1, h.2.2.1, h.2.2.2⟩

/-- Claim C6: a SELL whose quantity exceeds the derived available quantity is
rejected with the validation error naming the symbol, the requested quantity,
and the available quantity, and the stored history is not extended. -/
theorem spec_C6 (existing : List Transaction) (req : Transaction)
    (hsell : req.type = TxType.SELL)
    (hover : availableQuantity existing req.symbol < req.quantity) :
    handleCreateTransaction existing req =
      Except.error (sellErrorMessage req.symbol req.quantity
        (availableQuantity existing req.symbol)) ∧
    ∀ l, handleCreateTransaction existing req ≠ Except.ok l := by
  have h1 : handleCreateTransaction existing req =
      Except.error (sellErrorMessage req.symbol req.quantity
        (availableQuantity existing req.symbol)) := by
    simp [handleCreateTransaction, hsell, hover]
  refine ⟨h1, fun l hl => ?_⟩
  rw [h1] at hl
  exact Except.noConfusion hl

/-- Claim C6 witness: the test scenario, BUY 2 of AVGO then a SELL of 5, rejected
with available quantity 2. -/
theorem spec_C6_witness :
    (sellTx "AVGO" 5 120 1).type = TxType.SELL ∧
    availableQuantity [buyTx "AVGO" 2 100 0] "AVGO" = 2 ∧
    handleCreateTransaction [buyTx "AVGO" 2 100 0] (sellTx "AVGO" 5 120 1) =
      Except.error (sellErrorMessage "AVGO" 5 2) ∧
    ∀ l, handleCreateTransaction [buyTx "AVGO" 2 100 0] (sellTx "AVGO" 5 120 1) ≠
      Except.ok l := by
  have havail : availableQuantity [buyTx "AVGO" 2 100 0] "AVGO" = 2 := by
    norm_num [availableQuantity, derivePortfolioPositions, runTransactions, sortTxs,
      txLe, processTx, getAcc, setAcc, emptyAcc, finalizePosition, roundTo,
      buyTx, noPrices, round_eq]
  have hover : availableQuantity [buyTx "AVGO" 2 100 0] (sellTx "AVGO" 5 120 1).symbol <
      (sellTx "AVGO" 5 120 1).quantity := by
    have : (sellTx "AVGO" 5 120 1).symbol = "AVGO" := rfl
    rw [this, havail]
    norm_num [sellTx]
  have h := spec_C6 [buyTx "AVGO" 2 100 0] (sellTx "AVGO" 5 120 1) rfl hover
  refine ⟨rfl, havail, ?_, h.2⟩
  have heq : sellErrorMessage (sellTx "AVGO" 5 120 1).symbol (sellTx "AVGO" 5 120 1).quantity
      (availableQuantity [buyTx "AVGO" 2 100 0] (sellTx "AVGO" 5 120 1).symbol) =
      sellErrorMessage "AVGO" 5 2 := by
    have hs : (sellTx "AVGO" 5 120 1).symbol = "AVGO" := rfl
    have hq : (sellTx "AVGO" 5 120 1).quantity = 5 := rfl
    rw [hs, hq, havail]
  rw [← heq]
  exact h.1

/-- Claim C7: the deriver is a total function of its embedded domain, and on the
empty transaction list it returns no positions and zero realized P&L for
every price map. -/
theorem spec_C7 (m : String → Option ℚ) :
    derivePortfolioPositions [] m = ([], 0) := by
  norm_num [derivePortfolioPositions, runTransactions, sortTxs, roundTo, round_eq]

/-- Claim C8: a returned position whose symbol is missing from the price map has
null latestClose, marketValue and unrealizedPnL, while its costBasis is the
rounded accumulated total cost basis of its accumulator. -/
theorem spec_C8 (txs : List Transaction) (m : String → Option ℚ) (p : Position)
    (hp : p ∈ (derivePortfolioPositions txs m).1) (hmiss : m p.symbol = none) :
    p.latestClose = none ∧ p.marketValue = none ∧ p.unrealizedPnL = none ∧
    ∃ a, a ∈ (runTransactions txs).1 ∧ 0 < a.quantity ∧ a.symbol = p.symbol ∧
      p.costBasis = roundTo 2 a.totalCostBasis := by
  obtain ⟨a, ha, haq, rfl⟩ := mem_positions hp
  rw [finalizePosition_symbol] at hmiss
  obtain ⟨h1, h2, h3, h4⟩ := finalizePosition_missing hmiss
  exact ⟨h1, h2, h3, a, ha, haq, (finalizePosition_symbol m a).symm, h4⟩

/-- Claim C8 witness: a single BUY with the empty price map produces the all-null
market fields and costBasis 1000. -/
theorem spec_C8_witness :
    c8Pos ∈ (derivePortfolioPositions [txBuy10] noPrices).1 ∧
    noPrices c8Pos.symbol = none ∧
    (c8Pos.latestClose = none ∧ c8Pos.marketValue = none ∧ c8Pos.unrealizedPnL = none ∧
      ∃ a, a ∈ (runTransactions [txBuy10]).1 ∧ 0 < a.quantity ∧ a.symbol = c8Pos.symbol ∧
        c8Pos.costBasis = roundTo 2 a.totalCostBasis) := by
  have hmem : c8Pos ∈ (derivePortfolioPositions [txBuy10] noPrices).1 := by
    norm_num [derivePortfolioPositions, runTransactions, sortTxs, txLe, processTx,
      getAcc, setAcc, emptyAcc, finalizePosition, roundTo, txBuy10, buyTx,
      noPrices, c8Pos, round_eq]
  exact ⟨hmem, rfl, spec_C8 [txBuy10] noPrices c8Pos hmem rfl⟩

/-- Claim C9 counterexample: normalization accepts the digit-bearing ticker A1,
so the normalized symbol is not always letters and dot only. -/
theorem spec_C9_counterexample :
    normalizeTicker "A1" = some "A1" ∧ specLetterDotShape "A1" = false := by
  constructor <;> decide

/-- The regex acceptance implies the amended shape: first character a letter,
all characters letters, digits or dot, length between 1 and 10. -/
theorem tickerPattern_shape {s : String} (h : tickerPattern s = true) :
    amendedTickerShape s = true := by
  unfold tickerPattern at h
  unfold amendedTickerShape
  cases hd : s.data with
  | nil => rw [hd] at h; exact absurd h (by simp)
  | cons c cs =>
    rw [hd] at h
    simp only [Bool.and_eq_true, decide_eq_true_eq] at h
    obtain ⟨⟨h1, h2⟩, h3⟩ := h
    simp only [hd, Bool.and_eq_true, decide_eq_true_eq, List.all_cons]
    refine ⟨⟨⟨by simp, by simp; omega⟩, h1⟩, ?_, h3⟩
    unfold isTickerTail
    unfold isTickerHead at h1
    simp only [Bool.or_eq_true]
    exact Or.inl (Or.inl h1)

/-- Claim C9 amended: every successfully normalized ticker is 1 to 10 characters,
starts with an uppercase letter, and consists of letters, digits and dot. -/
theorem spec_C9_amended (s out : String) (h : normalizeTicker s = some out) :
    amendedTickerShape out = true := by
  unfold normalizeTicker at h
  by_cases hp : tickerPattern (stripUSSuffix (jsToUpper (jsTrim s))) = true
  · rw [if_pos hp] at h
    have : out = stripUSSuffix (jsToUpper (jsTrim s)) := (Option.some.inj h).symm
    rw [this]
    exact tickerPattern_shape hp
  · rw [if_neg hp] at h
    exact Option.noConfusion h

/-- Claim C9 amended witness: the lowercase vendor form aapl.us normalizes to AAPL,
which has the amended shape. -/
theorem spec_C9_amended_witness :
    normalizeTicker "aapl.us" = some "AAPL" ∧ amendedTickerShape "AAPL" = true :=
  ⟨by decide, spec_C9_amended "aapl.us" "AAPL" (by decide)⟩

/-- Claim C10: the price map influences only latestClose, marketValue and
unrealizedPnL; realizedPnL and all other position fields agree across any two
price maps. -/
theorem spec_C10 (txs : List Transaction) (m1 m2 : String → Option ℚ) :
    (derivePortfolioPositions txs m1).2 = (derivePortfolioPositions txs m2).2 ∧
    (derivePortfolioPositions txs m1).1.map coreFields =
      (derivePortfolioPositions txs m2).1.map coreFields := by
  refine ⟨rfl, ?_⟩
  simp only [derivePortfolioPositions, List.map_map]
  have : coreFields ∘ finalizePosition m1 = coreFields ∘ finalizePosition m2 := by
    funext a
    rfl
  rw [this]
